import Mathlib

/-
  Verification of the categorical-accuracy metric of the
  semantic-segmentation-baselines repository
  (src/metrics/categorical_accuracy.py).

  Embedding conventions:
  * Tensor values are rationals (ℚ), standing in for the floating-point
    values of the source; all arithmetic here is exact.
  * A label batch of shape [N, C] is a `List (List ℚ)`: N rows, each row a
    length-C vector of per-class scores.  Higher-rank batches flatten to
    this form, so rank 2 models the general case.
  * `K.int_shape(y_pred)[-1]` (the static trailing dimension) is read off
    the first row; for an empty batch it degenerates to 0, which leaves the
    derived sums (`correct`, `total`) at 0 exactly as in the source.
  * Fallible tensor operations return `Option`: `none` models the backend
    raising a shape error.
  * `K.cast(confusion, K.floatx())` is the identity in the ℚ model.
-/

namespace SegMetrics

/-- Index-and-value of the first maximal element of a vector, the semantics of
`K.argmax(·, axis=-1)` (ties are broken by the lowest index).  On the empty
vector it returns the junk value `(0, 0)`. -/
def argmaxPair : List ℚ → Nat × ℚ
  | [] => (0, 0)
  | [x] => (0, x)
  | x :: y :: xs =>
    if x < (argmaxPair (y :: xs)).2
    then ((argmaxPair (y :: xs)).1 + 1, (argmaxPair (y :: xs)).2)
    else (0, x)

/-- Index of the first maximal element of a vector: `K.argmax(·, axis=-1)`
applied to one row, ties broken by the lowest index. -/
def argmax (v : List ℚ) : Nat := (argmaxPair v).1

/-- The static trailing dimension of a rank-2 batch: `K.int_shape(t)[-1]`. -/
def lastDim (t : List (List ℚ)) : Nat :=
  match t with
  | [] => 0
  | r :: _ => r.length

/-- The identity matrix `K.eye(n)` as a list of rows. -/
def eye (n : Nat) : List (List ℚ) :=
  (List.range n).map (fun i => (List.range n).map (fun j => if i = j then 1 else 0))

/-- Elementwise (Hadamard) product of two matrices, the `*` of
`confusion * K.eye(num_classes)` in the source. -/
def hadamard (a b : List (List ℚ)) : List (List ℚ) :=
  (a.zip b).map (fun rc => (rc.1.zip rc.2).map (fun xy => xy.1 * xy.2))

/-- Sum of every entry of a matrix: `K.sum` on a rank-2 tensor. -/
def sumAll (m : List (List ℚ)) : ℚ := (m.map List.sum).sum

/-- The weighted (true, predicted) pairs fed to the confusion matrix: each
element is `((true_label, predicted_label), weight)`.  With `weights = None`
every pair carries unit weight. -/
def pairsOf (labels preds : List Nat) (weights : Option (List ℚ)) :
    List ((Nat × Nat) × ℚ) :=
  (labels.zip preds).zip
    (match weights with
     | none => List.replicate labels.length 1
     | some ws => ws)

/-- Entry `(i, j)` of the confusion matrix: the total weight of the pairs whose
true label is `i` and whose predicted label is `j`. -/
def cmEntry (pairs : List ((Nat × Nat) × ℚ)) (i j : Nat) : ℚ :=
  (pairs.map (fun z => if z.1.1 = i ∧ z.1.2 = j then z.2 else 0)).sum

/-- The `num_classes × num_classes` confusion matrix over a list of weighted
(true, predicted) pairs. -/
def cmBuild (pairs : List ((Nat × Nat) × ℚ)) (n : Nat) : List (List ℚ) :=
  (List.range n).map (fun i => (List.range n).map (fun j => cmEntry pairs i j))

/-- Validity checks of the backend confusion-matrix operation: the label and
prediction vectors must have the same length, every index must lie below
`num_classes`, and an explicit weight vector must have one weight per pair.
A violation raises a shape error (modelled as `none`). -/
def cmOK (labels preds : List Nat) (num_classes : Nat)
    (weights : Option (List ℚ)) : Bool :=
  labels.length == preds.length &&
  labels.all (fun t => decide (t < num_classes)) &&
  preds.all (fun p => decide (p < num_classes)) &&
  (match weights with
   | none => true
   | some ws => ws.length == labels.length)

/-- Modelled from the spec: the backend `confusion_matrix` operation imported
from `..backend.tensorflow_backend`, whose source file is not part of the
repository snapshot.  Per the spec it builds the confusion matrix over the
flattened true/predicted index pairs, sized `num_classes × num_classes`,
weighting each pair's contribution by the optional `weights` parameter (unit
weight per pair when `weights` is `None`), and fails with a shape error on
mismatched input lengths, out-of-range indices, or a weight vector whose
length differs from the label vector's. -/
def confusion_matrix (labels preds : List Nat) (num_classes : Nat)
    (weights : Option (List ℚ)) : Option (List (List ℚ)) :=
  if cmOK labels preds num_classes weights
  then some (cmBuild (pairsOf labels preds weights) num_classes)
  else none

/-- The metric body `categorical_accuracy(y_true, y_pred)` of
src/metrics/categorical_accuracy.py: derive `num_classes` from the trailing
dimension of `y_pred`, arg-max and flatten both batches, build the confusion
matrix, and return trace / total. -/
def categorical_accuracy (weights : Option (List ℚ))
    (y_true y_pred : List (List ℚ)) : Option ℚ :=
  let num_classes := lastDim y_pred
  let t := y_true.map argmax
  let p := y_pred.map argmax
  (confusion_matrix t p num_classes weights).map (fun confusion =>
    let correct := sumAll (hadamard confusion (eye num_classes))
    let total := sumAll confusion
    correct / total)

/-- `build_categorical_accuracy(weights)`: close the metric over the weights. -/
def build_categorical_accuracy (weights : Option (List ℚ)) :
    List (List ℚ) → List (List ℚ) → Option ℚ :=
  categorical_accuracy weights

/-- Trace of a square matrix (sum of the diagonal). -/
def traceM (m : List (List ℚ)) : ℚ :=
  ((List.range m.length).map (fun i => (m.getD i []).getD i 0)).sum

/-- Specification-side quantity: the weighted count of pairs whose true and
predicted labels agree. -/
def weightedCorrect (pairs : List ((Nat × Nat) × ℚ)) : ℚ :=
  (pairs.map (fun z => if z.1.1 = z.1.2 then z.2 else 0)).sum

/-- Specification-side quantity: the total weight of all pairs. -/
def weightedTotal (pairs : List ((Nat × Nat) × ℚ)) : ℚ :=
  (pairs.map (fun z => z.2)).sum

/-- Specification-side pairing of raw example rows with their effective
weights (unit when `weights` is `None`); used to state permutation
invariance of the batch. -/
def exPairs (y_true y_pred : List (List ℚ)) (weights : Option (List ℚ)) :
    List ((List ℚ × List ℚ) × ℚ) :=
  (y_true.zip y_pred).zip
    (match weights with
     | none => List.replicate y_true.length 1
     | some ws => ws)

/-- A one-hot vector: exactly one entry 1, all other entries 0. -/
def isOneHot (v : List ℚ) : Prop :=
  ∃ i, i < v.length ∧ v.getD i 0 = 1 ∧ ∀ j, j < v.length → j ≠ i → v.getD j 0 = 0

/-! ### Infrastructure lemmas -/

lemma rangeSum (n : Nat) (f : Nat → ℚ) :
    ((List.range n).map f).sum = ∑ j ∈ Finset.range n, f j := by
  induction n with
  | zero => simp
  | succ n ih => simp [List.range_succ, Finset.sum_range_succ, ih]

lemma cmEntry_nil (i j : Nat) : cmEntry [] i j = 0 := rfl

lemma cmEntry_cons (z : (Nat × Nat) × ℚ) (P : List ((Nat × Nat) × ℚ)) (i j : Nat) :
    cmEntry (z :: P) i j =
      (if z.1.1 = i ∧ z.1.2 = j then z.2 else 0) + cmEntry P i j := by
  simp [cmEntry]

lemma diag_head (a b : Nat) (w : ℚ) (n : Nat) :
    (∑ i ∈ Finset.range n, if a = i ∧ b = i then w else 0) =
      if a = b ∧ a < n then w else 0 := by
  simp only [ite_and, Finset.sum_ite_eq, Finset.mem_range]
  by_cases h1 : a < n <;> by_cases h2 : a = b <;>
    simp [h1, h2, eq_comm]

lemma total_head (a b : Nat) (w : ℚ) (n : Nat) :
    (∑ i ∈ Finset.range n, ∑ j ∈ Finset.range n, if a = i ∧ b = j then w else 0) =
      if a < n ∧ b < n then w else 0 := by
  simp only [ite_and, Finset.sum_ite_eq, Finset.mem_range, Finset.sum_ite_irrel,
    Finset.sum_const_zero]

lemma diag_sum (P : List ((Nat × Nat) × ℚ)) (n : Nat) :
    (∑ i ∈ Finset.range n, cmEntry P i i) =
      (P.map (fun z => if z.1.1 = z.1.2 ∧ z.1.1 < n then z.2 else 0)).sum := by
  induction P with
  | nil => simp [cmEntry]
  | cons z P ih =>
    simp only [cmEntry_cons, Finset.sum_add_distrib, ih, List.map_cons, List.sum_cons]
    rw [diag_head]

lemma total_sum (P : List ((Nat × Nat) × ℚ)) (n : Nat) :
    (∑ i ∈ Finset.range n, ∑ j ∈ Finset.range n, cmEntry P i j) =
      (P.map (fun z => if z.1.1 < n ∧ z.1.2 < n then z.2 else 0)).sum := by
  induction P with
  | nil => simp [cmEntry]
  | cons z P ih =>
    simp only [cmEntry_cons, Finset.sum_add_distrib, ih, List.map_cons, List.sum_cons]
    rw [total_head]

lemma sumAll_cmBuild (P : List ((Nat × Nat) × ℚ)) (n : Nat) :
    sumAll (cmBuild P n) =
      ∑ i ∈ Finset.range n, ∑ j ∈ Finset.range n, cmEntry P i j := by
  simp [sumAll, cmBuild, List.map_map, Function.comp, rangeSum]

lemma correct_cmBuild (P : List ((Nat × Nat) × ℚ)) (n : Nat) :
    sumAll (hadamard (cmBuild P n) (eye n)) = ∑ i ∈ Finset.range n, cmEntry P i i := by
  unfold hadamard cmBuild eye
  rw [List.zip_map']
  simp only [List.map_map, Function.comp]
  rw [sumAll]
  simp only [List.map_map, Function.comp]
  have hrow : ∀ i : Nat,
      ((((List.range n).map (fun j => cmEntry P i j)).zip
          ((List.range n).map (fun j => if i = j then (1 : ℚ) else 0))).map
        (fun xy => xy.1 * xy.2)).sum =
        ∑ j ∈ Finset.range n, (cmEntry P i j) * (if i = j then 1 else 0) := by
    intro i
    rw [List.zip_map']
    simp only [List.map_map, Function.comp]
    exact rangeSum n _
  calc ((List.range n).map (fun i =>
          ((((List.range n).map (fun j => cmEntry P i j)).zip
              ((List.range n).map (fun j => if i = j then (1 : ℚ) else 0))).map
            (fun xy => xy.1 * xy.2)).sum)).sum
      = ∑ i ∈ Finset.range n,
          ∑ j ∈ Finset.range n, (cmEntry P i j) * (if i = j then 1 else 0) := by
        rw [rangeSum]
        exact Finset.sum_congr rfl (fun i _ => hrow i)
    _ = ∑ i ∈ Finset.range n, cmEntry P i i := by
        refine Finset.sum_congr rfl (fun i hi => ?_)
        simp only [mul_ite, mul_one, mul_zero, Finset.sum_ite_eq, Finset.mem_range]
        rw [if_pos (Finset.mem_range.mp hi)]

lemma getD_map_range (n : Nat) (f : Nat → List ℚ) (i : Nat) (h : i < n) :
    ((List.range n).map f).getD i [] = f i := by
  simp [List.getD_eq_getElem?_getD, List.getElem?_map, List.getElem?_range h]

lemma traceM_cmBuild (P : List ((Nat × Nat) × ℚ)) (n : Nat) :
    traceM (cmBuild P n) = ∑ i ∈ Finset.range n, cmEntry P i i := by
  unfold traceM cmBuild
  simp only [List.length_map, List.length_range]
  rw [rangeSum]
  refine Finset.sum_congr rfl (fun i hi => ?_)
  have hi' := Finset.mem_range.mp hi
  rw [getD_map_range n _ i hi']
  simp [List.getD_eq_getElem?_getD, List.getElem?_map, List.getElem?_range hi']

lemma argmaxPair_spec (x : ℚ) (xs : List ℚ) :
    (argmaxPair (x :: xs)).1 < (x :: xs).length ∧
    (x :: xs).getD (argmaxPair (x :: xs)).1 0 = (argmaxPair (x :: xs)).2 ∧
    (∀ j, j < (x :: xs).length → (x :: xs).getD j 0 ≤ (argmaxPair (x :: xs)).2) ∧
    (∀ j, j < (argmaxPair (x :: xs)).1 → (x :: xs).getD j 0 < (argmaxPair (x :: xs)).2) := by
  induction xs generalizing x with
  | nil =>
    refine ⟨by simp [argmaxPair], by simp [argmaxPair], ?_, ?_⟩
    · intro j hj
      have hj0 : j = 0 := by
        simpa using Nat.lt_one_iff.mp (by simpa using hj)
      subst hj0
      simp [argmaxPair]
    · intro j hj
      simp [argmaxPair] at hj
  | cons y ys ih =>
    obtain ⟨ih1, ih2, ih3, ih4⟩ := ih y
    by_cases hx : x < (argmaxPair (y :: ys)).2
    · have hdef : argmaxPair (x :: y :: ys) =
          ((argmaxPair (y :: ys)).1 + 1, (argmaxPair (y :: ys)).2) := by
        rw [argmaxPair, if_pos hx]
      refine ⟨?_, ?_, ?_, ?_⟩
      · rw [hdef]
        simpa using Nat.succ_lt_succ ih1
      · rw [hdef]
        simpa using ih2
      · intro j hj
        rw [hdef]
        cases j with
        | zero => simpa using le_of_lt hx
        | succ j =>
          simp only [List.getD_cons_succ]
          exact ih3 j (by simpa using Nat.lt_of_succ_lt_succ hj)
      · intro j hj
        rw [hdef] at hj ⊢
        cases j with
        | zero => simpa using hx
        | succ j =>
          simp only [List.getD_cons_succ]
          exact ih4 j (by simpa using Nat.lt_of_succ_lt_succ hj)
    · have hm := le_of_not_lt hx
      have hdef : argmaxPair (x :: y :: ys) = (0, x) := by
        rw [argmaxPair, if_neg hx]
      refine ⟨?_, ?_, ?_, ?_⟩
      · rw [hdef]
        simp
      · rw [hdef]
        simp
      · intro j hj
        rw [hdef]
        cases j with
        | zero => simp
        | succ j =>
          simp only [List.getD_cons_succ]
          exact le_trans (ih3 j (by simpa using Nat.lt_of_succ_lt_succ hj)) hm
      · intro j hj
        rw [hdef] at hj
        simp at hj

lemma argmax_spec (v : List ℚ) (hv : v ≠ []) :
    argmax v < v.length ∧
    (∀ j, j < v.length → v.getD j 0 ≤ v.getD (argmax v) 0) ∧
    (∀ j, j < argmax v → v.getD j 0 < v.getD (argmax v) 0) := by
  cases v with
  | nil => exact absurd rfl hv
  | cons x xs =>
    obtain ⟨h1, h2, h3, h4⟩ := argmaxPair_spec x xs
    refine ⟨h1, ?_, ?_⟩
    · intro j hj
      rw [argmax, h2]
      exact h3 j hj
    · intro j hj
      rw [argmax, h2]
      exact h4 j hj

lemma argmax_lt (v : List ℚ) (hv : v ≠ []) : argmax v < v.length :=
  (argmax_spec v hv).1

lemma cmOK_iff (labels preds : List Nat) (n : Nat) (w : Option (List ℚ)) :
    cmOK labels preds n w = true ↔
      labels.length = preds.length ∧ (∀ t ∈ labels, t < n) ∧ (∀ p ∈ preds, p < n) ∧
      (∀ ws, w = some ws → ws.length = labels.length) := by
  unfold cmOK
  cases w <;>
    simp [List.all_eq_true, Bool.and_eq_true, beq_iff_eq, and_assoc]

lemma pairsOf_mem_idx {labels preds : List Nat} {w : Option (List ℚ)}
    {z : (Nat × Nat) × ℚ} (hz : z ∈ pairsOf labels preds w) :
    z.1.1 ∈ labels ∧ z.1.2 ∈ preds := by
  unfold pairsOf at hz
  have h1 : (z.1, z.2) ∈ (labels.zip preds).zip
      (match w with
       | none => List.replicate labels.length 1
       | some ws => ws) := by simpa using hz
  have h2 : z.1 ∈ labels.zip preds := (List.of_mem_zip h1).1
  have h3 : (z.1.1, z.1.2) ∈ labels.zip preds := by simpa using h2
  exact List.of_mem_zip h3

lemma pairsOf_valid {labels preds : List Nat} {n : Nat} {w : Option (List ℚ)}
    (hOK : cmOK labels preds n w = true) :
    ∀ z ∈ pairsOf labels preds w, z.1.1 < n ∧ z.1.2 < n := by
  obtain ⟨-, hl, hp, -⟩ := (cmOK_iff labels preds n w).mp hOK
  intro z hz
  obtain ⟨h1, h2⟩ := pairsOf_mem_idx hz
  exact ⟨hl _ h1, hp _ h2⟩

lemma correct_eq_weightedCorrect (P : List ((Nat × Nat) × ℚ)) (n : Nat)
    (hval : ∀ z ∈ P, z.1.1 < n ∧ z.1.2 < n) :
    sumAll (hadamard (cmBuild P n) (eye n)) = weightedCorrect P := by
  rw [correct_cmBuild, diag_sum, weightedCorrect]
  apply congrArg
  apply List.map_congr_left
  intro z hz
  by_cases h : z.1.1 = z.1.2 <;> simp [h, (hval z hz).1, (hval z hz).2]

lemma traceM_eq_weightedCorrect (P : List ((Nat × Nat) × ℚ)) (n : Nat)
    (hval : ∀ z ∈ P, z.1.1 < n ∧ z.1.2 < n) :
    traceM (cmBuild P n) = weightedCorrect P := by
  rw [traceM_cmBuild, diag_sum, weightedCorrect]
  apply congrArg
  apply List.map_congr_left
  intro z hz
  by_cases h : z.1.1 = z.1.2 <;> simp [h, (hval z hz).1, (hval z hz).2]

lemma total_eq_weightedTotal (P : List ((Nat × Nat) × ℚ)) (n : Nat)
    (hval : ∀ z ∈ P, z.1.1 < n ∧ z.1.2 < n) :
    sumAll (cmBuild P n) = weightedTotal P := by
  rw [sumAll_cmBuild, total_sum, weightedTotal]
  apply congrArg
  apply List.map_congr_left
  intro z hz
  simp [(hval z hz).1, (hval z hz).2]

lemma ca_of_cmOK (w : Option (List ℚ)) (yt yp : List (List ℚ))
    (hOK : cmOK (yt.map argmax) (yp.map argmax) (lastDim yp) w = true) :
    categorical_accuracy w yt yp =
      some (weightedCorrect (pairsOf (yt.map argmax) (yp.map argmax) w) /
            weightedTotal (pairsOf (yt.map argmax) (yp.map argmax) w)) := by
  have hval := pairsOf_valid hOK
  simp only [categorical_accuracy, confusion_matrix]
  rw [if_pos hOK]
  simp only [Option.map_some']
  rw [correct_eq_weightedCorrect _ _ hval, total_eq_weightedTotal _ _ hval]

lemma ca_of_not_cmOK (w : Option (List ℚ)) (yt yp : List (List ℚ))
    (hOK : ¬ (cmOK (yt.map argmax) (yp.map argmax) (lastDim yp) w = true)) :
    categorical_accuracy w yt yp = none := by
  simp only [categorical_accuracy, confusion_matrix]
  rw [if_neg hOK]
  rfl

lemma lastDim_eq (yp : List (List ℚ)) (c : Nat) (hne : yp ≠ [])
    (h : ∀ r ∈ yp, r.length = c) : lastDim yp = c := by
  cases yp with
  | nil => exact absurd rfl hne
  | cons r t => simpa [lastDim] using h r (List.mem_cons_self r t)

lemma cmOK_of_shape (w : Option (List ℚ)) (yt yp : List (List ℚ)) (c : Nat)
    (hlen : yt.length = yp.length) (hc : 0 < c)
    (hyt : ∀ r ∈ yt, r.length = c) (hyp2 : ∀ r ∈ yp, r.length = c) (hne : yp ≠ [])
    (hw : ∀ ws, w = some ws → ws.length = yt.length) :
    cmOK (yt.map argmax) (yp.map argmax) (lastDim yp) w = true := by
  have hld := lastDim_eq yp c hne hyp2
  rw [cmOK_iff]
  refine ⟨by simp [hlen], ?_, ?_, ?_⟩
  · intro t ht
    obtain ⟨r, hr, rfl⟩ := List.mem_map.mp ht
    have hrlen := hyt r hr
    have hrne : r ≠ [] := by
      intro h0
      subst h0
      simp at hrlen
      omega
    have := argmax_lt r hrne
    omega
  · intro p hp
    obtain ⟨r, hr, rfl⟩ := List.mem_map.mp hp
    have hrlen := hyp2 r hr
    have hrne : r ≠ [] := by
      intro h0
      subst h0
      simp at hrlen
      omega
    have := argmax_lt r hrne
    omega
  · intro ws hws
    simpa using hw ws hws

lemma weightedTotal_some (labels preds : List Nat) (W : List ℚ)
    (hlp : labels.length = preds.length) (hW : W.length = labels.length) :
    weightedTotal (pairsOf labels preds (some W)) = W.sum := by
  unfold weightedTotal pairsOf
  have hle : W.length ≤ (labels.zip preds).length := by
    simp [List.length_zip, hlp, hW]
  have : ((labels.zip preds).zip W).map (fun z => z.2) = W := by
    simpa using List.map_snd_zip (labels.zip preds) W hle
  rw [this]

lemma weightedTotal_none (labels preds : List Nat)
    (hlp : labels.length = preds.length) :
    weightedTotal (pairsOf labels preds none) = (labels.length : ℚ) := by
  unfold weightedTotal pairsOf
  have hle : (List.replicate labels.length (1 : ℚ)).length ≤ (labels.zip preds).length := by
    simp [List.length_zip, hlp]
  have hmap : ((labels.zip preds).zip (List.replicate labels.length (1 : ℚ))).map
      (fun z => z.2) = List.replicate labels.length (1 : ℚ) := by
    simpa using List.map_snd_zip (labels.zip preds) (List.replicate labels.length 1) hle
  rw [show (fun z : (Nat × Nat) × ℚ => z.2) = Prod.snd from rfl] at hmap
  calc (((labels.zip preds).zip (List.replicate labels.length (1 : ℚ))).map
        (fun z => z.2)).sum
      = (List.replicate labels.length (1 : ℚ)).sum := by rw [hmap]
    _ = (labels.length : ℚ) := by simp [List.sum_replicate]

lemma pairsOf_weight_mem {labels preds : List Nat} {w : Option (List ℚ)}
    {z : (Nat × Nat) × ℚ} (hz : z ∈ pairsOf labels preds w) :
    z.2 ∈ (match w with
           | none => List.replicate labels.length (1 : ℚ)
           | some ws => ws) := by
  unfold pairsOf at hz
  have h1 : (z.1, z.2) ∈ (labels.zip preds).zip
      (match w with
       | none => List.replicate labels.length 1
       | some ws => ws) := by simpa using hz
  exact (List.of_mem_zip h1).2

/-! ### Claims -/

/-- C7: in step 2 of the algorithm both batches are reduced to discrete class
indices by arg-max along the class dimension, with ties broken by the first
(lowest) occurring maximal index, before flattening: on every non-empty row
the index `argmax` returns is in range, its entry attains the maximum of the
row, and every strictly earlier index holds a strictly smaller value. -/
theorem c7_argmax_lowest_tie (v : List ℚ) (hv : v ≠ []) :
    argmax v < v.length ∧
    (∀ j, j < v.length → v.getD j 0 ≤ v.getD (argmax v) 0) ∧
    (∀ j, j < argmax v → v.getD j 0 < v.getD (argmax v) 0) :=
  argmax_spec v hv

/-- Witness for C7 on the row [1, 2, 2]: the first maximal index is 1. -/
theorem c7_argmax_lowest_tie_witness :
    argmax [(1 : ℚ), 2, 2] < ([(1 : ℚ), 2, 2]).length ∧
    (∀ j, j < ([(1 : ℚ), 2, 2]).length →
      ([(1 : ℚ), 2, 2]).getD j 0 ≤ ([(1 : ℚ), 2, 2]).getD (argmax [(1 : ℚ), 2, 2]) 0) ∧
    (∀ j, j < argmax [(1 : ℚ), 2, 2] →
      ([(1 : ℚ), 2, 2]).getD j 0 < ([(1 : ℚ), 2, 2]).getD (argmax [(1 : ℚ), 2, 2]) 0) :=
  c7_argmax_lowest_tie [(1 : ℚ), 2, 2] (by simp)

/-- C3: whenever the backend accepts the inputs, the confusion matrix built
inside the metric has trace equal to the weighted count of pairs whose true
and predicted class indices agree, and entry sum equal to the total weight of
all (true, predicted) pairs. -/
theorem c3_trace_and_total (w : Option (List ℚ)) (yt yp : List (List ℚ))
    (M : List (List ℚ))
    (hM : confusion_matrix (yt.map argmax) (yp.map argmax) (lastDim yp) w = some M) :
    traceM M = weightedCorrect (pairsOf (yt.map argmax) (yp.map argmax) w) ∧
    sumAll M = weightedTotal (pairsOf (yt.map argmax) (yp.map argmax) w) := by
  unfold confusion_matrix at hM
  by_cases hOK : cmOK (yt.map argmax) (yp.map argmax) (lastDim yp) w = true
  · rw [if_pos hOK] at hM
    have hMe : cmBuild (pairsOf (yt.map argmax) (yp.map argmax) w) (lastDim yp) = M :=
      Option.some.inj hM
    subst hMe
    exact ⟨traceM_eq_weightedCorrect _ _ (pairsOf_valid hOK),
           total_eq_weightedTotal _ _ (pairsOf_valid hOK)⟩
  · rw [if_neg hOK] at hM
    exact absurd hM (by simp)

/-- Witness for C3 on a one-example batch with two classes. -/
theorem c3_trace_and_total_witness :
    traceM [[(1 : ℚ), 0], [0, 0]] =
      weightedCorrect (pairsOf ([[(1 : ℚ), 0]].map argmax) ([[(1 : ℚ), 0]].map argmax) none) ∧
    sumAll [[(1 : ℚ), 0], [0, 0]] =
      weightedTotal (pairsOf ([[(1 : ℚ), 0]].map argmax) ([[(1 : ℚ), 0]].map argmax) none) :=
  c3_trace_and_total none [[(1 : ℚ), 0]] [[(1 : ℚ), 0]] [[(1 : ℚ), 0], [0, 0]]
    (by norm_num [confusion_matrix, cmOK, cmBuild, cmEntry, pairsOf, lastDim,
      argmax, argmaxPair, List.range_succ, List.zip, List.zipWith, List.replicate])

/-- C5 counterexample: calling the metric with `y_true` of shape [4, 3] and
`y_pred` of shape [4, 5] does NOT raise a dimension-mismatch error: both
batches arg-max and flatten to four in-range indices, the backend accepts
them, and the metric silently returns the value 1/2. -/
theorem c5_shape_mismatch_counterexample :
    categorical_accuracy none
      [[1, 0, 0], [0, 1, 0], [0, 0, 1], [1, 0, 0]]
      [[1, 0, 0, 0, 0], [1, 0, 0, 0, 0], [1, 0, 0, 0, 0], [1, 0, 0, 0, 0]] =
        some (1 / 2) ∧
    (categorical_accuracy none
      [[1, 0, 0], [0, 1, 0], [0, 0, 1], [1, 0, 0]]
      [[1, 0, 0, 0, 0], [1, 0, 0, 0, 0], [1, 0, 0, 0, 0], [1, 0, 0, 0, 0]]).isSome =
        true := by
  have h : categorical_accuracy none
      [[1, 0, 0], [0, 1, 0], [0, 0, 1], [1, 0, 0]]
      [[1, 0, 0, 0, 0], [1, 0, 0, 0, 0], [1, 0, 0, 0, 0], [1, 0, 0, 0, 0]] =
        some (1 / 2) := by
    norm_num [categorical_accuracy, confusion_matrix, cmOK, cmBuild, cmEntry, pairsOf,
      hadamard, eye, sumAll, lastDim, argmax, argmaxPair, List.range_succ,
      List.zip, List.zipWith, List.replicate]
  exact ⟨h, by rw [h]; rfl⟩

/-- C5 amended: the metric does not reliably fail fast on shape mismatches.
Two provable behaviours: (i) if `y_true` and `y_pred` hold different numbers
of examples, the backend refuses the flattened label/prediction vectors and
the metric errors; (ii) if the mismatch is confined to the trailing class
dimension and `y_true`'s class dimension does not exceed `y_pred`'s — in
particular `y_true` of shape [4, 3] against `y_pred` of shape [4, 5] — every
arg-maxed index stays below `num_classes`, the backend accepts the input,
and the metric silently returns a value instead of a dimension-mismatch
error.  (A trailing-dimension mismatch in the other direction may or may not
error, depending on whether some arg-maxed true index reaches past
`num_classes`; nothing universal holds there.) -/
theorem c5_shape_mismatch_amended :
    (∀ (w : Option (List ℚ)) (yt yp : List (List ℚ)), yt.length ≠ yp.length →
      categorical_accuracy w yt yp = none) ∧
    (∀ (yt yp : List (List ℚ)) (ct cp : Nat), yt.length = yp.length →
      0 < ct → ct ≤ cp →
      (∀ r ∈ yt, r.length = ct) → (∀ r ∈ yp, r.length = cp) → yp ≠ [] →
      (categorical_accuracy none yt yp).isSome = true) := by
  constructor
  · intro w yt yp hne
    apply ca_of_not_cmOK
    intro hOK
    exact hne (by simpa using ((cmOK_iff _ _ _ _).mp hOK).1)
  · intro yt yp ct cp hlen hct hle hyt hyp2 hne
    have hld := lastDim_eq yp cp hne hyp2
    have hOK : cmOK (yt.map argmax) (yp.map argmax) (lastDim yp) none = true := by
      rw [cmOK_iff]
      refine ⟨by simp [hlen], ?_, ?_, fun ws h => nomatch h⟩
      · intro t ht
        obtain ⟨r, hr, rfl⟩ := List.mem_map.mp ht
        have hrlen := hyt r hr
        have hrne : r ≠ [] := by
          intro h0
          subst h0
          simp at hrlen
          omega
        have := argmax_lt r hrne
        omega
      · intro p hp
        obtain ⟨r, hr, rfl⟩ := List.mem_map.mp hp
        have hrlen := hyp2 r hr
        have hrne : r ≠ [] := by
          intro h0
          subst h0
          simp at hrlen
          omega
        have := argmax_lt r hrne
        omega
    rw [ca_of_cmOK none yt yp hOK]
    rfl

/-- Witness for the amended C5: a batch-count mismatch (one example against
two) errors, while the [4, 3] versus [4, 5] trailing-dimension mismatch is
accepted and yields a value. -/
theorem c5_shape_mismatch_amended_witness :
    categorical_accuracy none [[(1 : ℚ)]] [[(1 : ℚ)], [(1 : ℚ)]] = none ∧
    (categorical_accuracy none
      [[(1 : ℚ), 0, 0], [0, 1, 0], [0, 0, 1], [1, 0, 0]]
      [[(1 : ℚ), 0, 0, 0, 0], [1, 0, 0, 0, 0], [1, 0, 0, 0, 0],
        [1, 0, 0, 0, 0]]).isSome = true :=
  ⟨c5_shape_mismatch_amended.1 none [[(1 : ℚ)]] [[(1 : ℚ)], [(1 : ℚ)]] (by simp),
   c5_shape_mismatch_amended.2
     [[(1 : ℚ), 0, 0], [0, 1, 0], [0, 0, 1], [1, 0, 0]]
     [[(1 : ℚ), 0, 0, 0, 0], [1, 0, 0, 0, 0], [1, 0, 0, 0, 0], [1, 0, 0, 0, 0]]
     3 5 rfl (by norm_num) (by norm_num) (by simp) (by simp) (by simp)⟩

/-- C6: on the empty batch the computed total is 0, yet the metric still
returns the unguarded quotient correct/total (an undefined 0/0 division,
producing NaN in floating point; this ℚ embedding gives the quotient its
division-by-zero convention value) instead of raising an error or
substituting a default accuracy; there is no special case for total = 0. -/
theorem c6_empty_batch_unguarded_division (w : Option (List ℚ))
    (hw : w = none ∨ w = some []) :
    weightedTotal (pairsOf ([] : List Nat) [] w) = 0 ∧
    categorical_accuracy w [] [] =
      some (weightedCorrect (pairsOf ([] : List Nat) [] w) /
            weightedTotal (pairsOf ([] : List Nat) [] w)) := by
  have hOK : cmOK (([] : List (List ℚ)).map argmax) (([] : List (List ℚ)).map argmax)
      (lastDim []) w = true := by
    rcases hw with rfl | rfl <;> rfl
  refine ⟨?_, ca_of_cmOK w [] [] hOK⟩
  rcases hw with rfl | rfl <;> rfl

/-- Witness for C6 with the default weights. -/
theorem c6_empty_batch_unguarded_division_witness :
    weightedTotal (pairsOf ([] : List Nat) [] none) = 0 ∧
    categorical_accuracy none [] [] =
      some (weightedCorrect (pairsOf ([] : List Nat) [] none) /
            weightedTotal (pairsOf ([] : List Nat) [] none)) :=
  c6_empty_batch_unguarded_division none (Or.inl rfl)

/-- C1 counterexample: with the non-negative weight vector [0] on a non-empty
equal-shaped one-example batch, the backend accepts the inputs but the
computed total is 0, refuting the claimed guarantee `total > 0`; the metric
then returns the unguarded quotient 0/0 rather than a value backed by a
positive total. -/
theorem c1_counterexample :
    (∀ x ∈ [(0 : ℚ)], 0 ≤ x) ∧
    confusion_matrix ([[(1 : ℚ)]].map argmax) ([[(1 : ℚ)]].map argmax)
      (lastDim [[(1 : ℚ)]]) (some [0]) = some [[0]] ∧
    ¬ (0 < sumAll [[(0 : ℚ)]]) ∧
    categorical_accuracy (some [0]) [[(1 : ℚ)]] [[(1 : ℚ)]] = some (0 / 0) := by
  refine ⟨by simp, ?_, ?_, ?_⟩
  · norm_num [confusion_matrix, cmOK, cmBuild, cmEntry, pairsOf, lastDim,
      argmax, argmaxPair, List.range_succ, List.zip, List.zipWith]
  · norm_num [sumAll]
  · norm_num [categorical_accuracy, confusion_matrix, cmOK, cmBuild, cmEntry, pairsOf,
      hadamard, eye, sumAll, lastDim, argmax, argmaxPair, List.range_succ,
      List.zip, List.zipWith]

/-- C1 amended: for equal-shaped, non-empty input batches whose weights are
either omitted or non-negative with positive sum, the backend accepts the
inputs, `correct ≤ total` and `total > 0` hold in the computation, and the
returned scalar lies in [0, 1].  (The original claim fails when the
non-negative weights sum to 0 — for example all-zero weights — since the
total then equals 0.) -/
theorem c1_accuracy_bounds (w : Option (List ℚ)) (yt yp : List (List ℚ)) (c : Nat)
    (hlen : yt.length = yp.length) (hc : 0 < c)
    (hyt : ∀ r ∈ yt, r.length = c) (hyp2 : ∀ r ∈ yp, r.length = c) (hne : yp ≠ [])
    (hw : ∀ ws, w = some ws →
      ws.length = yt.length ∧ (∀ x ∈ ws, 0 ≤ x) ∧ 0 < ws.sum) :
    ∃ M, confusion_matrix (yt.map argmax) (yp.map argmax) (lastDim yp) w = some M ∧
      traceM M ≤ sumAll M ∧ 0 < sumAll M ∧
      categorical_accuracy w yt yp = some (traceM M / sumAll M) ∧
      0 ≤ traceM M / sumAll M ∧ traceM M / sumAll M ≤ 1 := by
  have hOK := cmOK_of_shape w yt yp c hlen hc hyt hyp2 hne
    (fun ws h => (hw ws h).1)
  have hval := pairsOf_valid hOK
  have hlp : (yt.map argmax).length = (yp.map argmax).length := by simp [hlen]
  have hnn : ∀ z ∈ pairsOf (yt.map argmax) (yp.map argmax) w, (0 : ℚ) ≤ z.2 := by
    intro z hz
    have hmem := pairsOf_weight_mem hz
    rcases w with _ | ws
    · have := List.eq_of_mem_replicate hmem
      rw [this]
      norm_num
    · exact (hw ws rfl).2.1 _ hmem
  have hwc0 : 0 ≤ weightedCorrect (pairsOf (yt.map argmax) (yp.map argmax) w) := by
    apply List.sum_nonneg
    intro x hx
    obtain ⟨z, hz, rfl⟩ := List.mem_map.mp hx
    by_cases h : z.1.1 = z.1.2 <;> simp [h, hnn z hz]
  have hle : weightedCorrect (pairsOf (yt.map argmax) (yp.map argmax) w) ≤
      weightedTotal (pairsOf (yt.map argmax) (yp.map argmax) w) := by
    apply List.sum_le_sum
    intro z hz
    by_cases h : z.1.1 = z.1.2 <;> simp [h, hnn z hz]
  have htot : 0 < weightedTotal (pairsOf (yt.map argmax) (yp.map argmax) w) := by
    rcases w with _ | ws
    · rw [weightedTotal_none _ _ hlp]
      have hyt0 : yt ≠ [] := by
        intro h0
        rw [h0] at hlen
        exact hne (List.eq_nil_of_length_eq_zero hlen.symm)
      have hpos : 0 < yt.length := List.length_pos.mpr hyt0
      simp only [List.length_map]
      exact_mod_cast hpos
    · rw [weightedTotal_some _ _ ws hlp (by simpa using (hw ws rfl).1)]
      exact (hw ws rfl).2.2
  refine ⟨cmBuild (pairsOf (yt.map argmax) (yp.map argmax) w) (lastDim yp),
    ?_, ?_, ?_, ?_, ?_, ?_⟩
  · unfold confusion_matrix
    rw [if_pos hOK]
  · rw [traceM_eq_weightedCorrect _ _ hval, total_eq_weightedTotal _ _ hval]
    exact hle
  · rw [total_eq_weightedTotal _ _ hval]
    exact htot
  · rw [traceM_eq_weightedCorrect _ _ hval, total_eq_weightedTotal _ _ hval]
    exact ca_of_cmOK w yt yp hOK
  · rw [traceM_eq_weightedCorrect _ _ hval, total_eq_weightedTotal _ _ hval]
    exact div_nonneg hwc0 (le_of_lt htot)
  · rw [traceM_eq_weightedCorrect _ _ hval, total_eq_weightedTotal _ _ hval]
    exact (div_le_one htot).mpr hle

/-- Witness for the amended C1 on a two-example two-class batch with the
default weights. -/
theorem c1_accuracy_bounds_witness :
    ∃ M, confusion_matrix ([[(1 : ℚ), 0], [0, 1]].map argmax)
        ([[(1 : ℚ), 0], [0, 1]].map argmax) (lastDim [[(1 : ℚ), 0], [0, 1]]) none =
          some M ∧
      traceM M ≤ sumAll M ∧ 0 < sumAll M ∧
      categorical_accuracy none [[(1 : ℚ), 0], [0, 1]] [[(1 : ℚ), 0], [0, 1]] =
        some (traceM M / sumAll M) ∧
      0 ≤ traceM M / sumAll M ∧ traceM M / sumAll M ≤ 1 :=
  c1_accuracy_bounds none [[(1 : ℚ), 0], [0, 1]] [[(1 : ℚ), 0], [0, 1]] 2
    rfl (by simp) (by simp) (by simp) (by simp)
    (fun ws h => nomatch h)

/-- C2 counterexample: for `num_classes = 3` and the true/predicted index
pairs [(0,0), (0,1), (1,1), (2,2), (2,2)] (unweighted), four of the five
pairs agree, so the confusion-matrix diagonal sum is 4 — not the claimed 3 —
and the metric returns 4/5 = 0.8, not 0.6. -/
theorem c2_known_values_counterexample :
    confusion_matrix [0, 0, 1, 2, 2] [0, 1, 1, 2, 2] 3 none =
      some [[1, 1, 0], [0, 1, 0], [0, 0, 2]] ∧
    ¬ (traceM [[(1 : ℚ), 1, 0], [0, 1, 0], [0, 0, 2]] = 3) ∧
    ¬ (categorical_accuracy none
        [[1, 0, 0], [1, 0, 0], [0, 1, 0], [0, 0, 1], [0, 0, 1]]
        [[1, 0, 0], [0, 1, 0], [0, 1, 0], [0, 0, 1], [0, 0, 1]] = some (3 / 5)) := by
  refine ⟨?_, ?_, ?_⟩
  · norm_num [confusion_matrix, cmOK, cmBuild, cmEntry, pairsOf, List.range_succ,
      List.zip, List.zipWith, List.replicate]
  · norm_num [traceM, List.range_succ]
  · have h : categorical_accuracy none
        [[1, 0, 0], [1, 0, 0], [0, 1, 0], [0, 0, 1], [0, 0, 1]]
        [[1, 0, 0], [0, 1, 0], [0, 1, 0], [0, 0, 1], [0, 0, 1]] = some ((4 : ℚ) / 5) := by
      norm_num [categorical_accuracy, confusion_matrix, cmOK, cmBuild, cmEntry, pairsOf,
        hadamard, eye, sumAll, lastDim, argmax, argmaxPair, List.range_succ,
        List.zip, List.zipWith, List.replicate]
    rw [h]
    intro hcontra
    have := Option.some.inj hcontra
    norm_num at this

/-- C2 amended: on the same input the batches flatten to exactly those index
pairs, the confusion matrix is [[1,1,0],[0,1,0],[0,0,2]] with diagonal sum 4
and total sum 5, and the metric returns exactly 4/5 = 0.8. -/
theorem c2_known_values_amended :
    ([[(1 : ℚ), 0, 0], [1, 0, 0], [0, 1, 0], [0, 0, 1], [0, 0, 1]]).map argmax =
      [0, 0, 1, 2, 2] ∧
    ([[(1 : ℚ), 0, 0], [0, 1, 0], [0, 1, 0], [0, 0, 1], [0, 0, 1]]).map argmax =
      [0, 1, 1, 2, 2] ∧
    confusion_matrix [0, 0, 1, 2, 2] [0, 1, 1, 2, 2] 3 none =
      some [[1, 1, 0], [0, 1, 0], [0, 0, 2]] ∧
    traceM [[(1 : ℚ), 1, 0], [0, 1, 0], [0, 0, 2]] = 4 ∧
    sumAll [[(1 : ℚ), 1, 0], [0, 1, 0], [0, 0, 2]] = 5 ∧
    categorical_accuracy none
      [[1, 0, 0], [1, 0, 0], [0, 1, 0], [0, 0, 1], [0, 0, 1]]
      [[1, 0, 0], [0, 1, 0], [0, 1, 0], [0, 0, 1], [0, 0, 1]] = some (4 / 5) := by
  refine ⟨?_, ?_, ?_, ?_, ?_, ?_⟩
  · norm_num [argmax, argmaxPair]
  · norm_num [argmax, argmaxPair]
  · norm_num [confusion_matrix, cmOK, cmBuild, cmEntry, pairsOf, List.range_succ,
      List.zip, List.zipWith, List.replicate]
  · norm_num [traceM, List.range_succ]
  · norm_num [sumAll]
  · norm_num [categorical_accuracy, confusion_matrix, cmOK, cmBuild, cmEntry, pairsOf,
      hadamard, eye, sumAll, lastDim, argmax, argmaxPair, List.range_succ,
      List.zip, List.zipWith, List.replicate]

lemma pairsOf_none_eq (L Pr : List Nat) (hlp : L.length = Pr.length) :
    pairsOf L Pr none = (L.zip Pr).zip (List.replicate (L.zip Pr).length 1) := by
  unfold pairsOf
  congr 2
  simp [List.length_zip, hlp]

lemma weightedCorrect_unit (A : List (Nat × Nat)) :
    weightedCorrect (A.zip (List.replicate A.length 1)) =
      ((A.countP (fun z => decide (z.1 = z.2)) : ℕ) : ℚ) := by
  induction A with
  | nil => simp [weightedCorrect]
  | cons a A ih =>
    have hz : (a :: A).zip (List.replicate (a :: A).length 1) =
        (a, (1 : ℚ)) :: A.zip (List.replicate A.length 1) := by
      simp [List.replicate_succ]
    rw [hz]
    simp only [weightedCorrect, List.map_cons, List.sum_cons, List.countP_cons] at ih ⊢
    by_cases h : a.1 = a.2 <;> simp [h, ih, add_comm]

/-- C4: with the default `weights = None` every (true, predicted) pair
contributes unit weight: on every well-shaped input pair the metric built by
`build_categorical_accuracy None` returns the plain unweighted accuracy,
(number of agreeing arg-max pairs) / (number of examples). -/
theorem c4_default_unit_weights (yt yp : List (List ℚ)) (c : Nat)
    (hlen : yt.length = yp.length) (hc : 0 < c)
    (hyt : ∀ r ∈ yt, r.length = c) (hyp2 : ∀ r ∈ yp, r.length = c) (hne : yp ≠ []) :
    build_categorical_accuracy none yt yp =
      some (((((yt.map argmax).zip (yp.map argmax)).countP
               (fun z => decide (z.1 = z.2)) : ℕ) : ℚ) / (yt.length : ℚ)) := by
  have hOK := cmOK_of_shape none yt yp c hlen hc hyt hyp2 hne
    (fun ws h => nomatch h)
  have hlp : (yt.map argmax).length = (yp.map argmax).length := by simp [hlen]
  have hca := ca_of_cmOK none yt yp hOK
  rw [build_categorical_accuracy, hca]
  congr 1
  rw [pairsOf_none_eq _ _ hlp]
  rw [weightedCorrect_unit]
  have htot : weightedTotal (pairsOf (yt.map argmax) (yp.map argmax) none) =
      ((yt.map argmax).length : ℚ) := weightedTotal_none _ _ hlp
  rw [pairsOf_none_eq _ _ hlp] at htot
  rw [htot]
  simp

/-- Witness for C4: arg-max labels [0, 1] against predictions [1, 1] agree on
one of two examples, giving accuracy 1/2. -/
theorem c4_default_unit_weights_witness :
    build_categorical_accuracy none [[(1 : ℚ), 0], [0, 1]] [[(0 : ℚ), 1], [0, 1]] =
      some ((((([[(1 : ℚ), 0], [0, 1]].map argmax).zip
          ([[(0 : ℚ), 1], [0, 1]].map argmax)).countP
            (fun z => decide (z.1 = z.2)) : ℕ) : ℚ) /
        (([[(1 : ℚ), 0], [0, 1]]).length : ℚ)) :=
  c4_default_unit_weights [[(1 : ℚ), 0], [0, 1]] [[(0 : ℚ), 1], [0, 1]] 2
    rfl (by simp) (by simp) (by simp) (by simp)

lemma pairsOf_mem_pair {labels preds : List Nat} {w : Option (List ℚ)}
    {z : (Nat × Nat) × ℚ} (hz : z ∈ pairsOf labels preds w) :
    z.1 ∈ labels.zip preds := by
  unfold pairsOf at hz
  have h1 : (z.1, z.2) ∈ (labels.zip preds).zip
      (match w with
       | none => List.replicate labels.length 1
       | some ws => ws) := by simpa using hz
  exact (List.of_mem_zip h1).1

lemma zip_self_mem : ∀ {l : List Nat} {p : Nat × Nat}, p ∈ l.zip l → p.1 = p.2 := by
  intro l
  induction l with
  | nil =>
    intro p hp
    simp at hp
  | cons a t ih =>
    intro p hp
    rw [List.zip_cons_cons] at hp
    rcases List.mem_cons.mp hp with h | h
    · rw [h]
    · exact ih h

/-- C8: perfect agreement — whenever `y_true` equals `y_pred` example-wise, the
rows are one-hot vectors and the non-empty batch is well-shaped, the
(default-weighted) metric returns exactly 1. -/
theorem c8_perfect_agreement (yt yp : List (List ℚ))
    (hshape : ∀ r ∈ yp, r.length = lastDim yp) (hne : yp ≠ [])
    (h1 : ∀ r ∈ yp, isOneHot r) (heq : yt = yp) :
    categorical_accuracy none yt yp = some 1 := by
  subst heq
  have hc : 0 < lastDim yt := by
    cases yt with
    | nil => exact absurd rfl hne
    | cons r t =>
      obtain ⟨i, hi, -, -⟩ := h1 r (List.mem_cons_self r t)
      have hr := hshape r (List.mem_cons_self r t)
      omega
  have hOK := cmOK_of_shape none yt yt (lastDim yt) rfl hc hshape hshape hne
    (fun ws h => nomatch h)
  rw [ca_of_cmOK none yt yt hOK]
  have hagree : ∀ z ∈ pairsOf (yt.map argmax) (yt.map argmax) none, z.1.1 = z.1.2 :=
    fun z hz => zip_self_mem (pairsOf_mem_pair hz)
  have hwc : weightedCorrect (pairsOf (yt.map argmax) (yt.map argmax) none) =
      weightedTotal (pairsOf (yt.map argmax) (yt.map argmax) none) := by
    unfold weightedCorrect weightedTotal
    apply congrArg
    apply List.map_congr_left
    intro z hz
    simp [hagree z hz]
  have htot : weightedTotal (pairsOf (yt.map argmax) (yt.map argmax) none) =
      (yt.length : ℚ) := by
    have h := weightedTotal_none (yt.map argmax) (yt.map argmax) rfl
    simpa using h
  have hne0 : (yt.length : ℚ) ≠ 0 := by
    have hpos : 0 < yt.length := List.length_pos.mpr hne
    exact_mod_cast Nat.pos_iff_ne_zero.mp hpos
  rw [hwc, htot, div_self hne0]

/-- Witness for C8 on an identical two-example one-hot batch. -/
theorem c8_perfect_agreement_witness :
    categorical_accuracy none [[(1 : ℚ), 0], [0, 1]] [[(1 : ℚ), 0], [0, 1]] = some 1 :=
  c8_perfect_agreement [[(1 : ℚ), 0], [0, 1]] [[(1 : ℚ), 0], [0, 1]]
    (by norm_num [lastDim]) (by simp)
    (by
      intro r hr
      have h2 : r = [(1 : ℚ), 0] ∨ r = [0, 1] := by simpa using hr
      rcases h2 with rfl | rfl
      · refine ⟨0, by norm_num, by norm_num, ?_⟩
        intro j hj hj0
        simp only [List.length_cons, List.length_nil] at hj
        have hj1 : j = 1 := by omega
        subst hj1
        norm_num
      · refine ⟨1, by norm_num, by norm_num, ?_⟩
        intro j hj hj0
        simp only [List.length_cons, List.length_nil] at hj
        have hj1 : j = 0 := by omega
        subst hj1
        norm_num)
    rfl

lemma sum_map_scaled (P : List ((Nat × Nat) × ℚ)) (k : ℚ)
    (f : (Nat × Nat) × ℚ → ℚ) :
    (P.map (fun z => k * f z)).sum = k * (P.map f).sum := by
  induction P with
  | nil => simp
  | cons z P ih => simp [ih, mul_add]

/-- C10: positive rescaling of the weights leaves the metric unchanged — for
every input pair and every constant k > 0, building the metric with the
weights k * w returns the same accuracy as building it with w, since the
diagonal sum and the total sum both scale by k and the ratio cancels. -/
theorem c10_weight_scale_invariance (k : ℚ) (hk : 0 < k) (ws : List ℚ)
    (yt yp : List (List ℚ)) :
    categorical_accuracy (some (ws.map (fun x => k * x))) yt yp =
      categorical_accuracy (some ws) yt yp := by
  have hOKeq : cmOK (yt.map argmax) (yp.map argmax) (lastDim yp)
      (some (ws.map (fun x => k * x))) =
      cmOK (yt.map argmax) (yp.map argmax) (lastDim yp) (some ws) := by
    unfold cmOK
    simp
  by_cases hOK : cmOK (yt.map argmax) (yp.map argmax) (lastDim yp) (some ws) = true
  · have hOK2 : cmOK (yt.map argmax) (yp.map argmax) (lastDim yp)
        (some (ws.map (fun x => k * x))) = true := by
      rw [hOKeq]
      exact hOK
    rw [ca_of_cmOK _ _ _ hOK2, ca_of_cmOK _ _ _ hOK]
    have hpairs : pairsOf (yt.map argmax) (yp.map argmax) (some (ws.map (fun x => k * x))) =
        (pairsOf (yt.map argmax) (yp.map argmax) (some ws)).map
          (fun z => (z.1, k * z.2)) := by
      unfold pairsOf
      rw [List.zip_map_right]
      apply List.map_congr_left
      intro z hz
      simp [Prod.map]
    rw [hpairs]
    have hwc : weightedCorrect ((pairsOf (yt.map argmax) (yp.map argmax) (some ws)).map
        (fun z => (z.1, k * z.2))) =
        k * weightedCorrect (pairsOf (yt.map argmax) (yp.map argmax) (some ws)) := by
      unfold weightedCorrect
      rw [List.map_map]
      have hcongr : ∀ z ∈ pairsOf (yt.map argmax) (yp.map argmax) (some ws),
          ((fun z : (Nat × Nat) × ℚ => if z.1.1 = z.1.2 then z.2 else 0) ∘
            (fun z : (Nat × Nat) × ℚ => (z.1, k * z.2))) z =
          k * (if z.1.1 = z.1.2 then z.2 else 0) := by
        intro z hz
        by_cases h : z.1.1 = z.1.2 <;> simp [h, Function.comp]
      rw [List.map_congr_left hcongr, sum_map_scaled]
    have hwt : weightedTotal ((pairsOf (yt.map argmax) (yp.map argmax) (some ws)).map
        (fun z => (z.1, k * z.2))) =
        k * weightedTotal (pairsOf (yt.map argmax) (yp.map argmax) (some ws)) := by
      unfold weightedTotal
      rw [List.map_map]
      have hcongr : ∀ z ∈ pairsOf (yt.map argmax) (yp.map argmax) (some ws),
          ((fun z : (Nat × Nat) × ℚ => z.2) ∘
            (fun z : (Nat × Nat) × ℚ => (z.1, k * z.2))) z = k * z.2 := by
        intro z hz
        simp [Function.comp]
      rw [List.map_congr_left hcongr, sum_map_scaled]
    rw [hwc, hwt, mul_div_mul_left _ _ (ne_of_gt hk)]
  · have hOK2 : ¬ (cmOK (yt.map argmax) (yp.map argmax) (lastDim yp)
        (some (ws.map (fun x => k * x))) = true) := by
      rw [hOKeq]
      exact hOK
    rw [ca_of_not_cmOK _ _ _ hOK2, ca_of_not_cmOK _ _ _ hOK]

/-- Witness for C10 with the factor 2 on a one-example batch. -/
theorem c10_weight_scale_invariance_witness :
    categorical_accuracy (some ([(1 : ℚ)].map (fun x => (2 : ℚ) * x))) [[(1 : ℚ)]] [[(1 : ℚ)]] =
      categorical_accuracy (some [(1 : ℚ)]) [[(1 : ℚ)]] [[(1 : ℚ)]] :=
  c10_weight_scale_invariance 2 (by norm_num) [(1 : ℚ)] [[(1 : ℚ)]] [[(1 : ℚ)]]

lemma pairsOf_map_exPairs (yt yp : List (List ℚ)) (w : Option (List ℚ)) :
    pairsOf (yt.map argmax) (yp.map argmax) w =
      (exPairs yt yp w).map (fun z => ((argmax z.1.1, argmax z.1.2), z.2)) := by
  unfold pairsOf exPairs
  cases w with
  | none =>
    rw [List.zip_map, List.length_map, List.zip_map_left]
    apply List.map_congr_left
    intro z hz
    simp [Prod.map]
  | some ws =>
    rw [List.zip_map, List.zip_map_left]
    apply List.map_congr_left
    intro z hz
    simp [Prod.map]

/-- C9: the metric is invariant under permutation of the examples — for two
well-shaped non-empty input pairs whose example/weight triples are related by
a permutation (the same reordering applied to `y_true`, `y_pred` and the
per-example weights), the returned accuracy is identical, because the
confusion matrix is an order-independent sum over (true, predicted) pairs. -/
theorem c9_permutation_invariance (w wq : Option (List ℚ))
    (yt yp ytq ypq : List (List ℚ)) (c : Nat)
    (hlen : yt.length = yp.length) (hlenq : ytq.length = ypq.length)
    (hc : 0 < c)
    (hyt : ∀ r ∈ yt, r.length = c) (hyp2 : ∀ r ∈ yp, r.length = c)
    (hytq : ∀ r ∈ ytq, r.length = c) (hypq : ∀ r ∈ ypq, r.length = c)
    (hne : yp ≠ []) (hneq : ypq ≠ [])
    (hw : ∀ ws, w = some ws → ws.length = yt.length)
    (hwq : ∀ ws, wq = some ws → ws.length = ytq.length)
    (hp : List.Perm (exPairs yt yp w) (exPairs ytq ypq wq)) :
    categorical_accuracy w yt yp = categorical_accuracy wq ytq ypq := by
  have hOK := cmOK_of_shape w yt yp c hlen hc hyt hyp2 hne hw
  have hOKq := cmOK_of_shape wq ytq ypq c hlenq hc hytq hypq hneq hwq
  rw [ca_of_cmOK _ _ _ hOK, ca_of_cmOK _ _ _ hOKq]
  have hPerm : List.Perm (pairsOf (yt.map argmax) (yp.map argmax) w)
      (pairsOf (ytq.map argmax) (ypq.map argmax) wq) := by
    rw [pairsOf_map_exPairs, pairsOf_map_exPairs]
    exact hp.map _
  have h1 : weightedCorrect (pairsOf (yt.map argmax) (yp.map argmax) w) =
      weightedCorrect (pairsOf (ytq.map argmax) (ypq.map argmax) wq) :=
    (hPerm.map _).sum_eq
  have h2 : weightedTotal (pairsOf (yt.map argmax) (yp.map argmax) w) =
      weightedTotal (pairsOf (ytq.map argmax) (ypq.map argmax) wq) :=
    (hPerm.map _).sum_eq
  rw [h1, h2]

/-- Witness for C9: swapping the two examples of a batch leaves the accuracy
unchanged. -/
theorem c9_permutation_invariance_witness :
    categorical_accuracy none [[(1 : ℚ), 0], [0, 1]] [[(1 : ℚ), 0], [0, 1]] =
      categorical_accuracy none [[(0 : ℚ), 1], [1, 0]] [[(0 : ℚ), 1], [1, 0]] :=
  c9_permutation_invariance none none
    [[(1 : ℚ), 0], [0, 1]] [[(1 : ℚ), 0], [0, 1]]
    [[(0 : ℚ), 1], [1, 0]] [[(0 : ℚ), 1], [1, 0]] 2
    rfl rfl (by norm_num)
    (by simp) (by simp) (by simp) (by simp)
    (by simp) (by simp)
    (fun ws h => nomatch h) (fun ws h => nomatch h)
    (by decide)

end SegMetrics
